import Mathlib

/-!
Verification development for the ECG5000 data-preparation script
(`src/utils/data_preparation.py`).

The script loads the ECG5000 dataset as a table of records (a class label
followed by numeric features), separates normal records (label = 1) from
anomalous ones (label ≠ 1), performs three randomized splits via sklearn's
`train_test_split` (the third one stratified on the label), assembles four
partitions (train / val / val_p / test) as parallel feature and label
arrays, and saves them.

Modelling choices:
* A pandas row becomes a `Record` (rational label, rational feature list);
  a data frame becomes a `List Record`.
* Python floats become `ℚ`.  Python's `ZeroDivisionError` on float
  division by zero is modelled by explicit checks returning `.error`,
  since division in `ℚ` is total.
* sklearn's `train_test_split(arr, random_state = 88, test_size = t)`
  shuffles with a permutation determined by the fixed seed, then takes the
  first `⌈n·t⌉` shuffled elements as the test part and the rest as the
  train part, after validating `0 < t < 1` (a float `test_size` outside
  `(0,1)` raises `ValueError`).  The seed-determined permutation is
  abstracted as a `shuffle` function; theorems assume only that it
  permutes its input, which the Mersenne-Twister shuffle does.
* The stratified variant (`stratify = anomaly.Class`) groups rows by
  label, additionally validates that every class has at least 2 members
  and that both sides are at least as large as the number of classes
  (sklearn's `StratifiedShuffleSplit` raises `ValueError` otherwise), and
  allocates the train-side total `n - ⌈n·t⌉` across classes
  proportionally (floor of the proportional share, remainder distributed
  under per-class capacity), splitting each shuffled class group
  accordingly.
* Fallible library calls return `Except String _`.
-/

/- Batteries marks the `Rat` arithmetic operations `@[irreducible]`, which
blocks `decide` from evaluating concrete runs of the pipeline; restore the
default reducibility (the kernel ignores reducibility hints, so proofs are
unaffected). -/
set_option allowUnsafeReducibility true
attribute [semireducible] Rat.mul Rat.add Rat.sub Rat.div Rat.inv Rat.neg Rat.blt

/-- One row of the dataset: the class label (first column) and the numeric
time-series features (remaining columns). -/
structure Record where
  label : ℚ
  features : List ℚ
deriving DecidableEq, Repr, Inhabited

/-- The three percentage arguments parsed from the command line. -/
structure Args where
  perc_tr_n : ℚ
  perc_val_n : ℚ
  perc_val_an : ℚ
deriving DecidableEq, Repr, Inhabited

/-- Everything `data_preparation` computes after loading: the intermediate
row groups and the eight arrays that are saved with `np.save`. -/
structure PrepResult where
  normal : List Record
  anomaly : List Record
  train_n : List Record
  val_n : List Record
  test_n : List Record
  val_a : List Record
  test_a : List Record
  X_train : List (List ℚ)
  y_train : List ℚ
  X_val : List (List ℚ)
  y_val : List ℚ
  X_val_p : List (List ℚ)
  y_val_p : List ℚ
  X_test : List (List ℚ)
  y_test : List ℚ
deriving DecidableEq, Repr, Inhabited

/-- Number of test rows sklearn assigns for a float `test_size`:
`n_test = ceil(n * test_size)`. -/
def nTestOf (n : ℕ) (t : ℚ) : ℕ := (⌈(n : ℚ) * t⌉).toNat

/-- sklearn's `train_test_split(l, random_state = 88, test_size = t)` with a
float `test_size`: validate `0 < t < 1`, shuffle with the seed-fixed
permutation, return `(train, test)` where `test` is the first `⌈n·t⌉`
shuffled rows and `train` is the rest. -/
def train_test_split (shuffle : List Record → List Record) (l : List Record)
    (t : ℚ) : Except String (List Record × List Record) :=
  if 0 < t ∧ t < 1 then
    let s := shuffle l
    let nTest := nTestOf l.length t
    .ok (s.drop nTest, s.take nTest)
  else .error "ValueError: test_size must be in (0, 1)"

/-- Distribute a remainder `r` over base allocations `b` with capacities `c`
(pairs `(b, c)`), adding to each entry as much of the remainder as its
capacity allows. -/
def distribute : List (ℕ × ℕ) → ℕ → List ℕ
  | [], _ => []
  | (b, c) :: rest, r => (b + min r (c - b)) :: distribute rest (r - min r (c - b))

/-- Allocate `target` elements over classes with sizes `counts`,
proportionally: each class gets the floor of its proportional share, and
the remainder is distributed under per-class capacity. -/
def approxAlloc (counts : List ℕ) (target : ℕ) : List ℕ :=
  let n := counts.sum
  let base := counts.map (fun c => c * target / n)
  distribute (base.zip counts) (target - base.sum)

/-- The distinct class labels occurring in `l`, in order of first
appearance. -/
def classList (l : List Record) : List ℚ := (l.map (fun r => r.label)).dedup

/-- The rows of `l` grouped by class label. -/
def classGroups (l : List Record) : List (List Record) :=
  (classList l).map (fun c => l.filter (fun r => r.label = c))

/-- sklearn's `train_test_split(l, random_state = 88, test_size = t,
stratify = labels)`: validate `0 < t < 1`, that every class has at least
two members and that both sides can hold at least one member of each
class, then split every shuffled class group according to the
proportional allocation of the train-side total `n - ⌈n·t⌉`.  Returns
`(train, test)`. -/
def stratified_split (shuffle : List Record → List Record) (l : List Record)
    (t : ℚ) : Except String (List Record × List Record) :=
  if 0 < t ∧ t < 1 then
    let n := l.length
    let nTest := nTestOf n t
    let nTrain := n - nTest
    let groups := classGroups l
    if groups.any (fun g => g.length < 2) then
      .error "ValueError: the least populated class has fewer than 2 members"
    else if nTrain < groups.length ∨ nTest < groups.length then
      .error "ValueError: the train or test size is smaller than the number of classes"
    else
      let alloc := approxAlloc (groups.map List.length) nTrain
      let pieces := (groups.zip alloc).map
        (fun gc => ((shuffle gc.1).take gc.2, (shuffle gc.1).drop gc.2))
      .ok ((pieces.map Prod.fst).flatten, (pieces.map Prod.snd).flatten)
  else .error "ValueError: test_size must be in (0, 1)"

/-- `n_anol = len(X_train_n) * perc_anol_all / (1 - perc_anol_all)`: the
anomaly count to inject into validation, relative to the training-set
size. -/
def n_anol (trainLen : ℕ) (p : ℚ) : ℚ := (trainLen : ℚ) * p / (1 - p)

/-- The partitioning pipeline of `data_preparation` (everything after
loading), translated line by line from the source.  `shuffle` stands for
the permutation fixed by `random_state = 88`. -/
def data_preparation (shuffle : List Record → List Record) (df : List Record)
    (a : Args) : Except String PrepResult :=
  let normal := df.filter (fun r => r.label = 1)
  let anomaly := df.filter (fun r => ¬ r.label = 1)
  match train_test_split shuffle normal (1 - a.perc_tr_n) with
  | .error e => .error e
  | .ok (train_n, val_n0) =>
    match train_test_split shuffle val_n0 (1 - a.perc_val_n) with
    | .error e => .error e
    | .ok (val_n, test_n) =>
      if (1 : ℚ) - a.perc_val_an = 0 then
        .error "ZeroDivisionError: float division by zero"
      else if anomaly.length = 0 then
        .error "ZeroDivisionError: float division by zero"
      else
        let nA := n_anol train_n.length a.perc_val_an
        let perc_anol_val_a := nA / (anomaly.length : ℚ)
        let perc_anol_test_a := 1 - perc_anol_val_a
        match stratified_split shuffle anomaly perc_anol_test_a with
        | .error e => .error e
        | .ok (val_a, test_a) =>
          .ok { normal := normal
                anomaly := anomaly
                train_n := train_n
                val_n := val_n
                test_n := test_n
                val_a := val_a
                test_a := test_a
                X_train := train_n.map (fun r => r.features)
                y_train := train_n.map (fun r => r.label)
                X_val := (val_n ++ val_a).map (fun r => r.features)
                y_val := (val_n ++ val_a).map (fun r => r.label)
                X_val_p := val_n.map (fun r => r.features)
                y_val_p := val_n.map (fun r => r.label)
                X_test := (test_n ++ test_a).map (fun r => r.features)
                y_test := (test_n ++ test_a).map (fun r => r.label) }

/-! ### Helper lemmas about the splits -/

theorem train_test_split_ok {shuffle : List Record → List Record}
    {l : List Record} {t : ℚ} {a b : List Record}
    (h : train_test_split shuffle l t = .ok (a, b)) :
    (0 < t ∧ t < 1) ∧ a = (shuffle l).drop (nTestOf l.length t) ∧
      b = (shuffle l).take (nTestOf l.length t) := by
  unfold train_test_split at h
  split at h
  · simp only [Except.ok.injEq, Prod.mk.injEq] at h
    exact ⟨by assumption, h.1.symm, h.2.symm⟩
  · simp at h

theorem train_test_split_perm {shuffle : List Record → List Record}
    (hs : ∀ l, (shuffle l).Perm l) {l : List Record} {t : ℚ}
    {a b : List Record} (h : train_test_split shuffle l t = .ok (a, b)) :
    (a ++ b).Perm l := by
  obtain ⟨-, ha, hb⟩ := train_test_split_ok h
  subst ha; subst hb
  refine List.Perm.trans List.perm_append_comm ?_
  rw [List.take_append_drop]
  exact hs l

theorem distribute_length (ps : List (ℕ × ℕ)) (r : ℕ) :
    (distribute ps r).length = ps.length := by
  induction ps generalizing r with
  | nil => rfl
  | cons p rest ih => obtain ⟨b, c⟩ := p; simp [distribute, ih]

theorem distribute_sum (ps : List (ℕ × ℕ)) (r : ℕ)
    (hbc : ∀ p ∈ ps, p.1 ≤ p.2)
    (hr : r ≤ (ps.map (fun p => p.2 - p.1)).sum) :
    (distribute ps r).sum = (ps.map Prod.fst).sum + r := by
  induction ps generalizing r with
  | nil => simp at hr; simp [distribute, hr]
  | cons p rest ih =>
    obtain ⟨b, c⟩ := p
    have hbc0 : b ≤ c := hbc (b, c) (List.mem_cons_self _ _)
    have hbcr : ∀ q ∈ rest, q.1 ≤ q.2 := fun q hq => hbc q (List.mem_cons_of_mem _ hq)
    simp only [List.map_cons, List.sum_cons] at hr
    have hr2 : r - min r (c - b) ≤ (rest.map (fun p => p.2 - p.1)).sum := by omega
    simp only [distribute, List.sum_cons, List.map_cons, ih _ hbcr hr2]
    omega

theorem distribute_le_caps (ps : List (ℕ × ℕ)) (r : ℕ)
    (hbc : ∀ p ∈ ps, p.1 ≤ p.2) :
    List.Forall₂ (· ≤ ·) (distribute ps r) (ps.map Prod.snd) := by
  induction ps generalizing r with
  | nil => exact List.Forall₂.nil
  | cons p rest ih =>
    obtain ⟨b, c⟩ := p
    have hbc0 : b ≤ c := hbc (b, c) (List.mem_cons_self _ _)
    refine List.Forall₂.cons (by omega) (ih _ fun q hq => hbc q (List.mem_cons_of_mem _ hq))

theorem add_div_le_add_div (a b d : ℕ) : a / d + b / d ≤ (a + b) / d := by
  rcases Nat.eq_zero_or_pos d with hd | hd
  · simp [hd]
  · rw [Nat.le_div_iff_mul_le hd, Nat.add_mul]
    have h1 := Nat.div_mul_le_self a d
    have h2 := Nat.div_mul_le_self b d
    omega

theorem sum_map_div_le (l : List ℕ) (d : ℕ) :
    (l.map (fun c => c / d)).sum ≤ l.sum / d := by
  induction l with
  | nil => simp
  | cons a l ih =>
    simp only [List.map_cons, List.sum_cons]
    calc a / d + (l.map (fun c => c / d)).sum ≤ a / d + l.sum / d := by omega
      _ ≤ (a + l.sum) / d := add_div_le_add_div _ _ _

theorem mul_div_le_of_le {t n : ℕ} (c : ℕ) (h : t ≤ n) : c * t / n ≤ c := by
  rcases Nat.eq_zero_or_pos n with hn | hn
  · simp [hn]
  · calc c * t / n ≤ c * n / n := Nat.div_le_div_right (Nat.mul_le_mul_left c h)
      _ = c := Nat.mul_div_cancel c hn

theorem zip_map_self (f : ℕ → ℕ) (l : List ℕ) :
    (l.map f).zip l = l.map (fun c => (f c, c)) := by
  have h := List.zip_map' f id l
  simpa using h

theorem sum_map_mul (l : List ℕ) (t : ℕ) :
    (l.map (fun c => c * t)).sum = l.sum * t := by
  induction l with
  | nil => simp
  | cons a l ih => simp [List.sum_cons, ih, Nat.add_mul]

theorem sum_sub_le_sum (l : List ℕ) (f : ℕ → ℕ) :
    l.sum - (l.map f).sum ≤ (l.map (fun c => c - f c)).sum := by
  induction l with
  | nil => simp
  | cons a l ih => simp only [List.map_cons, List.sum_cons]; omega

theorem base_sum_le (counts : List ℕ) (target : ℕ) :
    ((counts.map (fun c => c * target / counts.sum)).sum) ≤ target := by
  rcases Nat.eq_zero_or_pos counts.sum with hn | hn
  · have : counts.map (fun c => c * target / counts.sum) = counts.map (fun _ => 0) := by
      refine List.map_congr_left fun c hc => ?_
      have : c = 0 := by
        have := List.single_le_sum (by intro x _; omega) c hc
        omega
      simp [this]
    rw [this]
    simp
  · have h1 : counts.map (fun c => c * target / counts.sum) =
        (counts.map (fun c => c * target)).map (fun c => c / counts.sum) := by
      rw [List.map_map]; rfl
    rw [h1]
    calc ((counts.map (fun c => c * target)).map (fun c => c / counts.sum)).sum
        ≤ (counts.map (fun c => c * target)).sum / counts.sum := sum_map_div_le _ _
      _ = counts.sum * target / counts.sum := by rw [sum_map_mul]
      _ = target := by rw [Nat.mul_div_cancel_left target hn]

theorem approxAlloc_sum (counts : List ℕ) (target : ℕ) (h : target ≤ counts.sum) :
    (approxAlloc counts target).sum = target := by
  show (distribute ((counts.map (fun c => c * target / counts.sum)).zip counts)
      (target - (counts.map (fun c => c * target / counts.sum)).sum)).sum = target
  rw [zip_map_self]
  have hbc : ∀ p ∈ counts.map (fun c => (c * target / counts.sum, c)), p.1 ≤ p.2 := by
    intro p hp
    obtain ⟨c, _, rfl⟩ := List.mem_map.mp hp
    exact mul_div_le_of_le c h
  have hbase := base_sum_le counts target
  have hcap : target - (counts.map (fun c => c * target / counts.sum)).sum ≤
      ((counts.map (fun c => (c * target / counts.sum, c))).map (fun p => p.2 - p.1)).sum := by
    rw [List.map_map]
    have h2 : ((fun p : ℕ × ℕ => p.2 - p.1) ∘ fun c => (c * target / counts.sum, c)) =
        fun c => c - c * target / counts.sum := rfl
    rw [h2]
    have h3 := sum_sub_le_sum counts (fun c => c * target / counts.sum)
    omega
  rw [distribute_sum _ _ hbc hcap, List.map_map]
  have h4 : (Prod.fst ∘ fun c => (c * target / counts.sum, c)) =
      fun c => c * target / counts.sum := rfl
  rw [h4]
  omega

theorem approxAlloc_le (counts : List ℕ) (target : ℕ) (h : target ≤ counts.sum) :
    List.Forall₂ (· ≤ ·) (approxAlloc counts target) counts := by
  show List.Forall₂ (· ≤ ·)
    (distribute ((counts.map (fun c => c * target / counts.sum)).zip counts)
      (target - (counts.map (fun c => c * target / counts.sum)).sum)) counts
  rw [zip_map_self]
  have hbc : ∀ p ∈ counts.map (fun c => (c * target / counts.sum, c)), p.1 ≤ p.2 := by
    intro p hp
    obtain ⟨c, _, rfl⟩ := List.mem_map.mp hp
    exact mul_div_le_of_le c h
  have h1 := distribute_le_caps (counts.map (fun c => (c * target / counts.sum, c)))
    (target - (counts.map (fun c => c * target / counts.sum)).sum) hbc
  rwa [List.map_map, show (Prod.snd ∘ fun c : ℕ => (c * target / counts.sum, c)) = id from rfl,
    List.map_id] at h1

theorem approxAlloc_length (counts : List ℕ) (target : ℕ) :
    (approxAlloc counts target).length = counts.length := by
  show (distribute ((counts.map (fun c => c * target / counts.sum)).zip counts)
      (target - (counts.map (fun c => c * target / counts.sum)).sum)).length = counts.length
  rw [distribute_length, List.length_zip, List.length_map]
  omega

theorem sum_map_ite_count (x : ℚ) (n : ℕ) (L : List ℚ) :
    (L.map (fun c => if x = c then n else 0)).sum = L.count x * n := by
  induction L with
  | nil => simp
  | cons c L ih =>
    by_cases hx : x = c
    · subst hx
      rw [List.map_cons, List.sum_cons, if_pos rfl, ih, List.count_cons_self]
      ring
    · rw [List.map_cons, List.sum_cons, if_neg hx, ih, List.count_cons_of_ne hx]
      simp

theorem count_label_filter_eq (l : List Record) (a : Record) (c : ℚ) :
    (l.filter (fun r => r.label = c)).count a =
      if a.label = c then l.count a else 0 := by
  by_cases h : a.label = c
  · rw [if_pos h]
    exact List.count_filter (by simpa using h)
  · rw [if_neg h]
    rw [List.count_eq_zero]
    intro hmem
    exact h (by simpa using (List.mem_filter.mp hmem).2)

theorem classGroups_flatten_perm (l : List Record) :
    (classGroups l).flatten.Perm l := by
  rw [List.perm_iff_count]
  intro a
  rw [List.count_flatten, classGroups, List.map_map]
  have h1 : (List.count a ∘ fun c => l.filter (fun r => r.label = c)) =
      fun c => if a.label = c then l.count a else 0 := by
    funext c
    exact count_label_filter_eq l a c
  rw [h1, sum_map_ite_count]
  by_cases hmem : a ∈ l
  · have hlbl : a.label ∈ classList l :=
      List.mem_dedup.mpr (List.mem_map.mpr ⟨a, hmem, rfl⟩)
    have hnd : (classList l).Nodup := List.nodup_dedup _
    rw [List.count_eq_one_of_mem hnd hlbl, one_mul]
  · have hz : l.count a = 0 := List.count_eq_zero.mpr hmem
    rw [hz, Nat.mul_zero]

theorem flatten_transpose_perm (P : List (List Record × List Record)) :
    ((P.map Prod.fst).flatten ++ (P.map Prod.snd).flatten).Perm
      ((P.map (fun p => p.1 ++ p.2)).flatten) := by
  induction P with
  | nil => simp
  | cons p P ih =>
    simp only [List.map_cons, List.flatten_cons]
    have h1 : (p.1 ++ (P.map Prod.fst).flatten ++ (p.2 ++ (P.map Prod.snd).flatten)).Perm
        (p.1 ++ (p.2 ++ ((P.map Prod.fst).flatten ++ (P.map Prod.snd).flatten))) := by
      rw [List.append_assoc]
      refine List.Perm.append_left p.1 ?_
      rw [← List.append_assoc, ← List.append_assoc]
      exact List.Perm.append_right _ List.perm_append_comm
    refine h1.trans ?_
    rw [← List.append_assoc]
    exact List.Perm.append_left _ ih

theorem flatten_shuffle_perm {shuffle : List Record → List Record}
    (hs : ∀ l, (shuffle l).Perm l) (gs : List (List Record)) (ks : List ℕ)
    (hlen : gs.length = ks.length) :
    (((gs.zip ks).map (fun gc => shuffle gc.1)).flatten).Perm gs.flatten := by
  induction gs generalizing ks with
  | nil => simp
  | cons g gs ih =>
    cases ks with
    | nil => simp at hlen
    | cons k ks =>
      simp only [List.zip_cons_cons, List.map_cons, List.flatten_cons]
      exact List.Perm.append (hs g) (ih ks (by simpa using hlen))

theorem stratified_split_ok {shuffle : List Record → List Record}
    {l : List Record} {t : ℚ} {a b : List Record}
    (h : stratified_split shuffle l t = .ok (a, b)) :
    (0 < t ∧ t < 1) ∧
    (¬ (classGroups l).any (fun g => g.length < 2)) ∧
    ¬ (l.length - nTestOf l.length t < (classGroups l).length ∨
        nTestOf l.length t < (classGroups l).length) ∧
    a = (((classGroups l).zip (approxAlloc ((classGroups l).map List.length)
        (l.length - nTestOf l.length t))).map
        (fun gc => (shuffle gc.1).take gc.2)).flatten ∧
    b = (((classGroups l).zip (approxAlloc ((classGroups l).map List.length)
        (l.length - nTestOf l.length t))).map
        (fun gc => (shuffle gc.1).drop gc.2)).flatten := by
  simp only [stratified_split] at h
  split at h
  · split at h
    · simp at h
    · split at h
      · simp at h
      · simp only [Except.ok.injEq, Prod.mk.injEq] at h
        obtain ⟨ha, hb⟩ := h
        refine ⟨by assumption, by assumption, by assumption, ?_, ?_⟩
        · rw [← ha, List.map_map]
          rfl
        · rw [← hb, List.map_map]
          rfl
  · simp at h

theorem stratified_split_perm {shuffle : List Record → List Record}
    (hs : ∀ l, (shuffle l).Perm l) {l : List Record} {t : ℚ}
    {a b : List Record} (h : stratified_split shuffle l t = .ok (a, b)) :
    (a ++ b).Perm l := by
  obtain ⟨-, -, -, ha, hb⟩ := stratified_split_ok h
  subst ha; subst hb
  have hlen : (classGroups l).length =
      (approxAlloc ((classGroups l).map List.length)
        (l.length - nTestOf l.length t)).length := by
    rw [approxAlloc_length, List.length_map]
  set Z := (classGroups l).zip (approxAlloc ((classGroups l).map List.length)
    (l.length - nTestOf l.length t)) with hZ
  have h1 := flatten_transpose_perm
    (Z.map (fun gc => ((shuffle gc.1).take gc.2, (shuffle gc.1).drop gc.2)))
  rw [List.map_map, List.map_map, List.map_map] at h1
  have h2 : (Z.map ((fun p : List Record × List Record => p.1 ++ p.2) ∘
      fun gc : List Record × ℕ =>
        ((shuffle gc.1).take gc.2, (shuffle gc.1).drop gc.2))) =
      Z.map (fun gc => shuffle gc.1) := by
    refine List.map_congr_left fun gc _ => ?_
    simp [Function.comp, List.take_append_drop]
  rw [h2] at h1
  refine List.Perm.trans h1 ?_
  have h3 := flatten_shuffle_perm hs (classGroups l)
    (approxAlloc ((classGroups l).map List.length)
      (l.length - nTestOf l.length t)) hlen
  exact h3.trans (classGroups_flatten_perm l)

theorem flatten_take_length {shuffle : List Record → List Record}
    (hs : ∀ l, (shuffle l).Perm l) (gs : List (List Record)) (ks : List ℕ)
    (h : List.Forall₂ (· ≤ ·) ks (gs.map List.length)) :
    (((gs.zip ks).map (fun gc => (shuffle gc.1).take gc.2)).flatten).length
      = ks.sum := by
  induction gs generalizing ks with
  | nil =>
    simp only [List.map_nil] at h
    cases h
    simp
  | cons g gs ih =>
    simp only [List.map_cons] at h
    cases h with
    | cons hk hrest =>
      rename_i k ks
      simp only [List.zip_cons_cons, List.map_cons, List.flatten_cons,
        List.length_append, List.sum_cons, List.length_take,
        (hs g).length_eq]
      rw [ih ks hrest]
      omega

theorem classGroups_counts_sum (l : List Record) :
    (((classGroups l).map List.length).sum) = l.length := by
  rw [← List.length_flatten]
  exact (classGroups_flatten_perm l).length_eq

theorem stratified_split_train_length {shuffle : List Record → List Record}
    (hs : ∀ l, (shuffle l).Perm l) {l : List Record} {t : ℚ}
    {a b : List Record} (h : stratified_split shuffle l t = .ok (a, b)) :
    a.length = l.length - nTestOf l.length t := by
  obtain ⟨-, -, -, ha, -⟩ := stratified_split_ok h
  subst ha
  have hle : l.length - nTestOf l.length t ≤ ((classGroups l).map List.length).sum := by
    rw [classGroups_counts_sum]
    omega
  rw [flatten_take_length hs _ _ (approxAlloc_le _ _ hle)]
  exact approxAlloc_sum _ _ hle

theorem classGroups_length_pos {l : List Record} (hne : l ≠ []) :
    0 < (classGroups l).length := by
  cases l with
  | nil => exact absurd rfl hne
  | cons r l =>
    rw [classGroups, List.length_map, List.length_pos]
    intro hnil
    have : r.label ∈ classList (r :: l) :=
      List.mem_dedup.mpr (List.mem_map.mpr ⟨r, List.mem_cons_self _ _, rfl⟩)
    rw [hnil] at this
    exact List.not_mem_nil _ this

theorem data_preparation_ok {shuffle : List Record → List Record}
    {df : List Record} {a : Args} {P : PrepResult}
    (h : data_preparation shuffle df a = .ok P) :
    ∃ val_n0 : List Record,
      train_test_split shuffle (df.filter (fun r => r.label = 1)) (1 - a.perc_tr_n)
        = .ok (P.train_n, val_n0) ∧
      train_test_split shuffle val_n0 (1 - a.perc_val_n) = .ok (P.val_n, P.test_n) ∧
      (1 : ℚ) - a.perc_val_an ≠ 0 ∧
      P.anomaly.length ≠ 0 ∧
      stratified_split shuffle P.anomaly
        (1 - n_anol P.train_n.length a.perc_val_an / (P.anomaly.length : ℚ))
        = .ok (P.val_a, P.test_a) ∧
      P.normal = df.filter (fun r => r.label = 1) ∧
      P.anomaly = df.filter (fun r => ¬ r.label = 1) ∧
      P.X_train = P.train_n.map (fun r => r.features) ∧
      P.y_train = P.train_n.map (fun r => r.label) ∧
      P.X_val = (P.val_n ++ P.val_a).map (fun r => r.features) ∧
      P.y_val = (P.val_n ++ P.val_a).map (fun r => r.label) ∧
      P.X_val_p = P.val_n.map (fun r => r.features) ∧
      P.y_val_p = P.val_n.map (fun r => r.label) ∧
      P.X_test = (P.test_n ++ P.test_a).map (fun r => r.features) ∧
      P.y_test = (P.test_n ++ P.test_a).map (fun r => r.label) := by
  simp only [data_preparation] at h
  split at h
  · simp at h
  · rename_i train_n val_n0 heq1
    split at h
    · simp at h
    · rename_i val_n test_n heq2
      split at h
      · simp at h
      · rename_i hz1
        split at h
        · simp at h
        · rename_i hz2
          split at h
          · simp at h
          · rename_i val_a test_a heq3
            simp only [Except.ok.injEq] at h
            subst h
            exact ⟨val_n0, heq1, heq2, hz1, hz2, heq3, rfl, rfl, rfl, rfl, rfl,
              rfl, rfl, rfl, rfl, rfl⟩

/-!
### Loader

`pd.read_table(path, sep = r"\s{2,}", engine = "python", header = None)`
parses every line (no header row) by splitting it at maximal runs of two
or more whitespace characters, in the way `re.split` does.  `splitFields`
models that per-line tokenisation at the character level.
-/

/-- Helper for `splitFields`: scan the line left to right.  `acc` holds
the current field in reverse; `sep = true` means the scanner is inside a
separator run of whitespace.  A whitespace character followed by another
whitespace character ends the current field and the whole whitespace run
is consumed, while a lone whitespace character stays inside the field. -/
def splitFieldsGo : List Char → List Char → Bool → List (List Char)
  | [], acc, _ => [acc.reverse]
  | c :: cs, _, true =>
    if c.isWhitespace then splitFieldsGo cs [] true
    else splitFieldsGo cs [c] false
  | c :: cs, acc, false =>
    if c.isWhitespace then
      match cs with
      | [] => [(c :: acc).reverse]
      | d :: _ =>
        if d.isWhitespace then acc.reverse :: splitFieldsGo cs [] true
        else splitFieldsGo cs (c :: acc) false
    else
      splitFieldsGo cs (c :: acc) false

/-- Split one line into its fields, the separator being any maximal run of
two or more whitespace characters (the regex `\s{2,}`). -/
def splitFields (l : List Char) : List (List Char) := splitFieldsGo l [] false

/-- `pd.read_table(..., header = None)`: every line of the file, including
the first, becomes a data row. -/
def readTable (lines : List (List Char)) : List (List (List Char)) :=
  lines.map splitFields

/-- `pd.concat([train, test])`: the two parsed tables concatenated
row-wise. -/
def loadConcat (trainLines testLines : List (List Char)) :
    List (List (List Char)) :=
  readTable trainLines ++ readTable testLines

/-- `new_columns = list(df.columns); new_columns[0] = "Class"`: rename
only the first column. -/
def renameFirst (cols : List String) : List String :=
  match cols with
  | [] => []
  | _ :: rest => "Class" :: rest

/-- Join fields with a separator of `k` spaces (used to state that
`splitFields` inverts two-or-more-space-separated formatting). -/
def sepJoin (k : ℕ) : List (List Char) → List Char
  | [] => []
  | [f] => f
  | f :: fs => f ++ List.replicate k ' ' ++ sepJoin k fs

/-- No two adjacent whitespace characters. -/
def noDoubleWS : List Char → Bool
  | a :: b :: t => (!(a.isWhitespace && b.isWhitespace)) && noDoubleWS (b :: t)
  | _ => true

/-- A field that survives a round trip through two-or-more-space-separated
formatting: nonempty, no leading or trailing whitespace, and no internal
run of two whitespace characters (lone internal spaces are fine). -/
def goodField (f : List Char) : Bool :=
  !f.isEmpty &&
  f.head?.all (fun c => !c.isWhitespace) &&
  f.getLast?.all (fun c => !c.isWhitespace) &&
  noDoubleWS f

example : splitFields "a b".toList = ["a b".toList] := by decide
example : splitFields "a  b".toList = ["a".toList, "b".toList] := by decide
example : splitFields "-0.5   1.2  x y".toList =
    ["-0.5".toList, "1.2".toList, "x y".toList] := by decide
example : splitFields "".toList = [[]] := by decide
example : splitFields "  a".toList = [[], "a".toList] := by decide

theorem space_ws : (' ').isWhitespace = true := by decide

theorem noDoubleWS_tail {c : Char} {cs : List Char}
    (h : noDoubleWS (c :: cs) = true) : noDoubleWS cs = true := by
  cases cs with
  | nil => rfl
  | cons d ds =>
    simp only [noDoubleWS, Bool.and_eq_true] at h
    exact h.2

theorem noDoubleWS_head {c d : Char} {ds : List Char}
    (h : noDoubleWS (c :: d :: ds) = true) (hc : c.isWhitespace = true) :
    d.isWhitespace = false := by
  simp only [noDoubleWS, Bool.and_eq_true, Bool.not_eq_true',
    Bool.and_eq_false_iff] at h
  rcases h.1 with h1 | h1
  · rw [hc] at h1; cases h1
  · exact h1

theorem getLast?_all_tail {p : Char → Bool} {c : Char} {cs : List Char}
    (h : ((c :: cs).getLast?.all p) = true) : (cs.getLast?.all p) = true := by
  cases cs with
  | nil => rfl
  | cons d ds => rwa [List.getLast?_cons_cons] at h

theorem splitFieldsGo_last (f : List Char) :
    ∀ acc : List Char, noDoubleWS f = true →
    (f.getLast?.all (fun c => !c.isWhitespace)) = true →
    splitFieldsGo f acc false = [acc.reverse ++ f] := by
  induction f with
  | nil => intro acc _ _; simp [splitFieldsGo]
  | cons c cs ih =>
    intro acc hnd hlast
    cases hcw : c.isWhitespace with
    | false =>
      have h1 : splitFieldsGo (c :: cs) acc false =
          splitFieldsGo cs (c :: acc) false := by
        simp [splitFieldsGo, hcw]
      rw [h1, ih (c :: acc) (noDoubleWS_tail hnd) (getLast?_all_tail hlast)]
      simp
    | true =>
      cases cs with
      | nil => simp [hcw] at hlast
      | cons d ds =>
        have hd : d.isWhitespace = false := noDoubleWS_head hnd hcw
        have h1 : splitFieldsGo (c :: d :: ds) acc false =
            splitFieldsGo (d :: ds) (c :: acc) false := by
          simp [splitFieldsGo, hcw, hd]
        rw [h1, ih (c :: acc) (noDoubleWS_tail hnd) (getLast?_all_tail hlast)]
        simp

theorem splitFieldsGo_true_replicate (m : ℕ) (r : List Char) :
    splitFieldsGo (List.replicate m ' ' ++ r) [] true =
      splitFieldsGo r [] true := by
  induction m with
  | zero => simp
  | succ m ih =>
    rw [List.replicate_succ, List.cons_append]
    have h1 : splitFieldsGo (' ' :: (List.replicate m ' ' ++ r)) [] true =
        splitFieldsGo (List.replicate m ' ' ++ r) [] true := by
      simp [splitFieldsGo, space_ws]
    rw [h1, ih]

theorem splitFieldsGo_true_start (r : List Char)
    (hr : (r.head?.all (fun c => !c.isWhitespace)) = true) :
    splitFieldsGo r [] true = splitFieldsGo r [] false := by
  cases r with
  | nil => rfl
  | cons c cs =>
    have hc : c.isWhitespace = false := by simpa using hr
    simp [splitFieldsGo, hc]

theorem splitFieldsGo_field (f : List Char) :
    ∀ (acc : List Char) (m : ℕ) (r : List Char), noDoubleWS f = true →
    (f.getLast?.all (fun c => !c.isWhitespace)) = true →
    splitFieldsGo (f ++ ' ' :: ' ' :: (List.replicate m ' ' ++ r)) acc false =
      (acc.reverse ++ f) :: splitFieldsGo r [] true := by
  induction f with
  | nil =>
    intro acc m r _ _
    simp only [List.nil_append]
    have h1 : splitFieldsGo (' ' :: ' ' :: (List.replicate m ' ' ++ r)) acc false
        = acc.reverse :: splitFieldsGo (' ' :: (List.replicate m ' ' ++ r)) [] true := by
      simp [splitFieldsGo, space_ws]
    have h2 : splitFieldsGo (' ' :: (List.replicate m ' ' ++ r)) [] true =
        splitFieldsGo (List.replicate m ' ' ++ r) [] true := by
      simp [splitFieldsGo, space_ws]
    rw [h1, h2, splitFieldsGo_true_replicate]
    simp
  | cons c cs ih =>
    intro acc m r hnd hlast
    rw [List.cons_append]
    cases hcw : c.isWhitespace with
    | false =>
      have h1 : splitFieldsGo (c :: (cs ++ ' ' :: ' ' :: (List.replicate m ' ' ++ r))) acc false
          = splitFieldsGo (cs ++ ' ' :: ' ' :: (List.replicate m ' ' ++ r)) (c :: acc) false := by
        simp [splitFieldsGo, hcw]
      rw [h1, ih (c :: acc) m r (noDoubleWS_tail hnd) (getLast?_all_tail hlast)]
      simp
    | true =>
      cases cs with
      | nil => simp [hcw] at hlast
      | cons d ds =>
        have hd : d.isWhitespace = false := noDoubleWS_head hnd hcw
        rw [List.cons_append]
        have h1 : splitFieldsGo
            (c :: d :: (ds ++ ' ' :: ' ' :: (List.replicate m ' ' ++ r))) acc false
            = splitFieldsGo (d :: (ds ++ ' ' :: ' ' :: (List.replicate m ' ' ++ r)))
              (c :: acc) false := by
          simp [splitFieldsGo, hcw, hd]
        rw [h1]
        have h2 := ih (c :: acc) m r (noDoubleWS_tail hnd) (getLast?_all_tail hlast)
        rw [List.cons_append] at h2
        rw [h2]
        simp

theorem goodField_parts {f : List Char} (h : goodField f = true) :
    f ≠ [] ∧ (f.head?.all (fun c => !c.isWhitespace)) = true ∧
      (f.getLast?.all (fun c => !c.isWhitespace)) = true ∧
      noDoubleWS f = true := by
  simp only [goodField, Bool.and_eq_true, Bool.not_eq_true'] at h
  refine ⟨?_, h.1.1.2, h.1.2, h.2⟩
  intro hnil
  subst hnil
  simp at h

theorem sepJoin_head_all {k : ℕ} {g : List Char} {gs : List (List Char)}
    (hg : goodField g = true) :
    ((sepJoin k (g :: gs)).head?.all (fun c => !c.isWhitespace)) = true := by
  obtain ⟨hne, hhead, -, -⟩ := goodField_parts hg
  cases g with
  | nil => exact absurd rfl hne
  | cons c cr =>
    cases gs with
    | nil => exact hhead
    | cons h t =>
      have : sepJoin k ((c :: cr) :: h :: t) =
          c :: (cr ++ List.replicate k ' ' ++ sepJoin k (h :: t)) := by
        show (c :: cr) ++ List.replicate k ' ' ++ sepJoin k (h :: t) = _
        simp
      rw [this]
      simpa using hhead

theorem splitFields_sepJoin (k : ℕ) (hk : 2 ≤ k) :
    ∀ fs : List (List Char), fs ≠ [] → (∀ f ∈ fs, goodField f = true) →
    splitFields (sepJoin k fs) = fs := by
  obtain ⟨m, rfl⟩ : ∃ m, k = m + 2 := ⟨k - 2, by omega⟩
  intro fs
  induction fs with
  | nil => intro h _; exact absurd rfl h
  | cons f fs ih =>
    intro _ hgood
    obtain ⟨-, -, hlast, hnd⟩ := goodField_parts (hgood f (List.mem_cons_self _ _))
    cases fs with
    | nil =>
      show splitFieldsGo f [] false = [f]
      rw [splitFieldsGo_last f [] hnd hlast]
      simp
    | cons g gs =>
      have hsj : sepJoin (m + 2) (f :: g :: gs) =
          f ++ (' ' :: ' ' :: (List.replicate m ' ' ++ sepJoin (m + 2) (g :: gs))) := by
        show f ++ List.replicate (m + 2) ' ' ++ sepJoin (m + 2) (g :: gs) = _
        rw [List.append_assoc]
        congr 1
      rw [splitFields, hsj,
        splitFieldsGo_field f [] m (sepJoin (m + 2) (g :: gs)) hnd hlast,
        splitFieldsGo_true_start _ (sepJoin_head_all (hgood g (by simp)))]
      have hih := ih (by simp) (fun x hx => hgood x (List.mem_cons_of_mem _ hx))
      rw [splitFields] at hih
      rw [hih]
      simp

/-!
### Extractor

The download branch extracts every archive member into `data/ECG5000` and
then calls `os.remove` on the archive and five fixed file names, in
source order, with no existence check.  The filesystem is modelled as the
finite set of existing paths; `os.remove` on a missing path raises
`FileNotFoundError`.
-/

/-- The six paths deleted by the script, in source order: the archive
plus five extracted files not needed later. -/
def removedFiles : List String :=
  ["data/ECG5000.zip",
   "data/ECG5000/ECG5000_TRAIN.arff",
   "data/ECG5000/ECG5000_TRAIN.ts",
   "data/ECG5000/ECG5000_TEST.ts",
   "data/ECG5000/ECG5000_TEST.arff",
   "data/ECG5000/ECG5000.txt"]

/-- `zip.extractall("data/ECG5000")`: every archive member appears in the
output directory. -/
def extractAll (fs : Finset String) (members : List String) : Finset String :=
  fs ∪ (members.map (fun m => "data/ECG5000/" ++ m)).toFinset

/-- `os.remove(p)`: delete `p`, or raise `FileNotFoundError` when `p` does
not exist. -/
def osRemove (fs : Finset String) (p : String) : Except String (Finset String) :=
  if p ∈ fs then .ok (fs.erase p) else .error ("FileNotFoundError: " ++ p)

/-- Run `os.remove` on each path in order, stopping at the first error. -/
def removeAll : Finset String → List String → Except String (Finset String)
  | fs, [] => .ok fs
  | fs, p :: ps =>
    match osRemove fs p with
    | .error e => .error e
    | .ok fs1 => removeAll fs1 ps

/-- The extract-then-clean-up stage of the download branch. -/
def extractStage (fs : Finset String) (members : List String) :
    Except String (Finset String) :=
  removeAll (extractAll fs members) removedFiles

/-- Whether an `Except` computation raised. -/
def isErr {A : Type} : Except String A → Bool
  | .error _ => true
  | .ok _ => false

theorem removeAll_subset :
    ∀ (ps : List String) (fs fs1 : Finset String),
    removeAll fs ps = .ok fs1 → fs1 ⊆ fs := by
  intro ps
  induction ps with
  | nil =>
    intro fs fs1 h
    simp only [removeAll, Except.ok.injEq] at h
    subst h
    exact Finset.Subset.refl _
  | cons p ps ih =>
    intro fs fs1 h
    by_cases hp : p ∈ fs
    · simp only [removeAll, osRemove, if_pos hp] at h
      exact (ih _ _ h).trans (Finset.erase_subset _ _)
    · simp only [removeAll, osRemove, if_neg hp] at h
      cases h

theorem removeAll_removed :
    ∀ (ps : List String) (fs fs1 : Finset String),
    removeAll fs ps = .ok fs1 → ∀ p ∈ ps, p ∉ fs1 := by
  intro ps
  induction ps with
  | nil => intro fs fs1 _ p hp; simp at hp
  | cons q qs ih =>
    intro fs fs1 h p hp
    by_cases hq : q ∈ fs
    · simp only [removeAll, osRemove, if_pos hq] at h
      rcases List.mem_cons.mp hp with rfl | hp2
      · intro hmem
        exact (Finset.not_mem_erase p fs) (removeAll_subset qs _ _ h hmem)
      · exact ih _ _ h p hp2
    · simp only [removeAll, osRemove, if_neg hq] at h
      cases h

theorem removeAll_keeps :
    ∀ (ps : List String) (fs fs1 : Finset String) (x : String),
    removeAll fs ps = .ok fs1 → x ∈ fs → x ∉ ps → x ∈ fs1 := by
  intro ps
  induction ps with
  | nil =>
    intro fs fs1 x h hx _
    simp only [removeAll, Except.ok.injEq] at h
    subst h
    exact hx
  | cons q qs ih =>
    intro fs fs1 x h hx hnp
    by_cases hq : q ∈ fs
    · simp only [removeAll, osRemove, if_pos hq] at h
      refine ih _ _ x h (Finset.mem_erase.mpr ⟨?_, hx⟩) ?_
      · intro hxq; exact hnp (hxq ▸ List.mem_cons_self _ _)
      · intro hxqs; exact hnp (List.mem_cons_of_mem _ hxqs)
    · simp only [removeAll, osRemove, if_neg hq] at h
      cases h

theorem removeAll_missing_error :
    ∀ (ps : List String) (fs : Finset String),
    (∃ p ∈ ps, p ∉ fs) → isErr (removeAll fs ps) = true := by
  intro ps
  induction ps with
  | nil =>
    intro fs h
    obtain ⟨p, hp, -⟩ := h
    simp at hp
  | cons q qs ih =>
    intro fs h
    obtain ⟨p, hp, hpfs⟩ := h
    by_cases hq : q ∈ fs
    · simp only [removeAll, osRemove, if_pos hq]
      rcases List.mem_cons.mp hp with rfl | hp2
      · exact absurd hq hpfs
      · refine ih _ ⟨p, hp2, ?_⟩
        intro hmem
        exact hpfs (Finset.mem_of_mem_erase hmem)
    · simp only [removeAll, osRemove, if_neg hq]
      rfl

/-!
### Concrete data used by the witnesses
-/

deriving instance DecidableEq for Except

/-- A normal record (label 1) with one feature. -/
def rec1 (i : ℕ) : Record := ⟨1, [(i : ℚ)]⟩

/-- An anomalous record (label 2) with one feature. -/
def rec2 (i : ℕ) : Record := ⟨2, [(100 + i : ℚ)]⟩

/-- A small table: 10 normal records and 6 anomalous records. -/
def df0 : List Record := ((List.range 10).map rec1) ++ ((List.range 6).map rec2)

/-- Percentages for the witnesses. -/
def args0 : Args := ⟨1/2, 1/2, 1/3⟩

/-- The result of running the pipeline on `df0` with `args0` and the
identity permutation. -/
def w0 : PrepResult := ((data_preparation id df0 args0).toOption).getD default

example : data_preparation id df0 args0 = .ok w0 := by decide
example : w0.train_n.length = 5 ∧ w0.val_a.length = 2 := by decide

/-!
### The claims
-/

/-- C1: the Partitioner computes `n_anomaly_val = |train_n| * perc_val_an /
(1 - perc_val_an)`, so that `n_anomaly_val / (|train_n| + n_anomaly_val) =
perc_val_an` — the fraction is relative to the training-set size — and the
fraction of the anomaly group routed to validation is
`n_anomaly_val / |anomaly|` (the stratified split receives test size
`1 - n_anomaly_val / |anomaly|`). -/
theorem C1 :
    (∀ (T : ℕ) (p : ℚ), 0 < T → p ≠ 1 →
      n_anol T p / ((T : ℚ) + n_anol T p) = p) ∧
    (∀ (shuffle : List Record → List Record) (df : List Record) (a : Args)
      (P : PrepResult), data_preparation shuffle df a = .ok P →
      stratified_split shuffle P.anomaly
        (1 - n_anol P.train_n.length a.perc_val_an / (P.anomaly.length : ℚ))
        = .ok (P.val_a, P.test_a)) := by
  constructor
  · intro T p hT hp
    have hT0 : (T : ℚ) ≠ 0 := Nat.cast_ne_zero.mpr (Nat.pos_iff_ne_zero.mp hT)
    have h1p : (1 : ℚ) - p ≠ 0 := sub_ne_zero.mpr (Ne.symm hp)
    have hden : (T : ℚ) + n_anol T p = (T : ℚ) / (1 - p) := by
      rw [n_anol]
      field_simp
      ring
    rw [hden, n_anol]
    rw [div_div_div_cancel_right₀]
    exact mul_div_cancel_left₀ p hT0
    exact h1p
  · intro shuffle df a P h
    obtain ⟨v0, h1, h2, h3, h4, h5, h6, h7, h8, h9, h10, h11, h12, h13,
      h14, h15⟩ := data_preparation_ok h
    exact h5

/-- Closed instance of `C1` at concrete inputs. -/
theorem C1_witness :
    n_anol 5 (1/3) / ((5 : ℚ) + n_anol 5 (1/3)) = 1/3 ∧
    stratified_split id w0.anomaly
      (1 - n_anol w0.train_n.length args0.perc_val_an / (w0.anomaly.length : ℚ))
      = .ok (w0.val_a, w0.test_a) :=
  ⟨C1.1 5 (1/3) (by decide) (by decide), C1.2 id df0 args0 w0 (by decide)⟩

/-- C2: for every input table and percentages in `(0,1)^3`, whenever the
pipeline produces its partitions, the two random splits of the normal side
and the stratified split of the anomalous side partition their inputs
exactly — `train_n ++ val_n ++ test_n` is a permutation of `normal`,
`val_a ++ test_a` is a permutation of `anomaly`, and the sizes add up with
no record lost or duplicated. -/
theorem C2 (shuffle : List Record → List Record)
    (hs : ∀ l, (shuffle l).Perm l) (df : List Record) (a : Args)
    (P : PrepResult)
    (_h1 : 0 < a.perc_tr_n ∧ a.perc_tr_n < 1)
    (_h2 : 0 < a.perc_val_n ∧ a.perc_val_n < 1)
    (_h3 : 0 < a.perc_val_an ∧ a.perc_val_an < 1)
    (hok : data_preparation shuffle df a = .ok P) :
    (P.train_n ++ (P.val_n ++ P.test_n)).Perm P.normal ∧
    (P.val_a ++ P.test_a).Perm P.anomaly ∧
    P.train_n.length + P.val_n.length + P.test_n.length = P.normal.length ∧
    P.val_a.length + P.test_a.length = P.anomaly.length := by
  obtain ⟨v0, ht1, ht2, -, -, hstrat, hnorm, -, -, -, -, -, -, -, -, -⟩ :=
    data_preparation_ok hok
  have p1 : (P.train_n ++ v0).Perm (df.filter (fun r => r.label = 1)) :=
    train_test_split_perm hs ht1
  have p2 : (P.val_n ++ P.test_n).Perm v0 := train_test_split_perm hs ht2
  have pn : (P.train_n ++ (P.val_n ++ P.test_n)).Perm P.normal := by
    rw [hnorm]
    exact (List.Perm.append_left P.train_n p2).trans p1
  have pa : (P.val_a ++ P.test_a).Perm P.anomaly :=
    stratified_split_perm hs hstrat
  refine ⟨pn, pa, ?_, ?_⟩
  · have hl := pn.length_eq
    simp only [List.length_append] at hl
    omega
  · have hl := pa.length_eq
    simp only [List.length_append] at hl
    omega

/-- Closed instance of `C2` at concrete inputs. -/
theorem C2_witness :
    ((0:ℚ) < args0.perc_tr_n ∧ args0.perc_tr_n < 1) ∧
    ((w0.train_n ++ (w0.val_n ++ w0.test_n)).Perm w0.normal ∧
     (w0.val_a ++ w0.test_a).Perm w0.anomaly ∧
     w0.train_n.length + w0.val_n.length + w0.test_n.length = w0.normal.length ∧
     w0.val_a.length + w0.test_a.length = w0.anomaly.length) :=
  ⟨by decide, C2 id (fun l => List.Perm.refl l) df0 args0 w0 (by decide)
    (by decide) (by decide) (by decide)⟩

/-- C3: for every input table and valid percentages, every record of the
produced training partition is normal — each saved training label equals 1
and every training record has label 1; no anomalous row enters training. -/
theorem C3 (shuffle : List Record → List Record)
    (hs : ∀ l, (shuffle l).Perm l) (df : List Record) (a : Args)
    (P : PrepResult)
    (_h1 : 0 < a.perc_tr_n ∧ a.perc_tr_n < 1)
    (_h2 : 0 < a.perc_val_n ∧ a.perc_val_n < 1)
    (_h3 : 0 < a.perc_val_an ∧ a.perc_val_an < 1)
    (hok : data_preparation shuffle df a = .ok P) :
    (∀ y ∈ P.y_train, y = 1) ∧ (∀ r ∈ P.train_n, r.label = 1) := by
  obtain ⟨v0, ht1, -, -, -, -, -, -, -, hyt, -, -, -, -, -, -⟩ :=
    data_preparation_ok hok
  have hmem : ∀ r ∈ P.train_n, r.label = 1 := by
    intro r hr
    obtain ⟨-, hd, -⟩ := train_test_split_ok ht1
    rw [hd] at hr
    have hr2 : r ∈ shuffle (df.filter (fun x => x.label = 1)) :=
      List.drop_subset _ _ hr
    have hr3 : r ∈ df.filter (fun x => x.label = 1) :=
      ((hs _).mem_iff).mp hr2
    have := (List.mem_filter.mp hr3).2
    simpa using this
  refine ⟨?_, hmem⟩
  intro y hy
  rw [hyt] at hy
  obtain ⟨r, hr, rfl⟩ := List.mem_map.mp hy
  exact hmem r hr

/-- Closed instance of `C3` at concrete inputs. -/
theorem C3_witness :
    (∀ y ∈ w0.y_train, y = 1) ∧ (∀ r ∈ w0.train_n, r.label = 1) :=
  C3 id (fun l => List.Perm.refl l) df0 args0 w0 (by decide) (by decide)
    (by decide) (by decide)

/-- C4: for every input table and valid percentages, whenever the pipeline
produces its partitions, `val_p` is a strict subset of `val`: every
(features, label) row of `val_p` occurs in `val`, and `val` has at least
one row (an anomalous one) that is not in `val_p`. -/
theorem C4 (shuffle : List Record → List Record)
    (hs : ∀ l, (shuffle l).Perm l) (df : List Record) (a : Args)
    (P : PrepResult)
    (_h1 : 0 < a.perc_tr_n ∧ a.perc_tr_n < 1)
    (_h2 : 0 < a.perc_val_n ∧ a.perc_val_n < 1)
    (_h3 : 0 < a.perc_val_an ∧ a.perc_val_an < 1)
    (hok : data_preparation shuffle df a = .ok P) :
    (∀ q ∈ P.X_val_p.zip P.y_val_p, q ∈ P.X_val.zip P.y_val) ∧
    (∃ q ∈ P.X_val.zip P.y_val, q ∉ P.X_val_p.zip P.y_val_p) := by
  obtain ⟨v0, ht1, ht2, -, hz2, hstrat, hnorm, hanom, -, -, hXv, hyv, hXvp,
    hyvp, -, -⟩ := data_preparation_ok hok
  have hvn1 : ∀ r ∈ P.val_n, r.label = 1 := by
    intro r hr
    have hr1 : r ∈ v0 := (train_test_split_perm hs ht2).mem_iff.mp
      (List.mem_append_left _ hr)
    have hr2 : r ∈ df.filter (fun x => x.label = 1) :=
      (train_test_split_perm hs ht1).mem_iff.mp (List.mem_append_right _ hr1)
    simpa using (List.mem_filter.mp hr2).2
  have hva : ∀ r ∈ P.val_a, ¬ r.label = 1 := by
    intro r hr
    have hr1 : r ∈ P.anomaly := (stratified_split_perm hs hstrat).mem_iff.mp
      (List.mem_append_left _ hr)
    rw [hanom] at hr1
    simpa using (List.mem_filter.mp hr1).2
  have hpairs_p : P.X_val_p.zip P.y_val_p =
      P.val_n.map (fun r => (r.features, r.label)) := by
    rw [hXvp, hyvp, List.zip_map']
  have hpairs : P.X_val.zip P.y_val =
      (P.val_n ++ P.val_a).map (fun r => (r.features, r.label)) := by
    rw [hXv, hyv, List.zip_map']
  constructor
  · intro q hq
    rw [hpairs_p] at hq
    rw [hpairs]
    obtain ⟨r, hr, rfl⟩ := List.mem_map.mp hq
    exact List.mem_map.mpr ⟨r, List.mem_append_left _ hr, rfl⟩
  · have hlen := stratified_split_train_length hs hstrat
    obtain ⟨-, -, hcond, -, -⟩ := stratified_split_ok hstrat
    rw [not_or] at hcond
    have hk : 0 < (classGroups P.anomaly).length := by
      refine classGroups_length_pos ?_
      intro hnil
      exact hz2 (by rw [hnil]; rfl)
    have hpos : 0 < P.val_a.length := by omega
    obtain ⟨a0, ha0⟩ := List.exists_mem_of_ne_nil _ (List.length_pos.mp hpos)
    refine ⟨(a0.features, a0.label), ?_, ?_⟩
    · rw [hpairs]
      exact List.mem_map.mpr ⟨a0, List.mem_append_right _ ha0, rfl⟩
    · rw [hpairs_p]
      intro hmem
      obtain ⟨r, hr, heq⟩ := List.mem_map.mp hmem
      have hlbl : r.label = a0.label := congrArg Prod.snd heq
      exact hva a0 ha0 (hlbl ▸ hvn1 r hr)

/-- Closed instance of `C4` at concrete inputs. -/
theorem C4_witness :
    (∀ q ∈ w0.X_val_p.zip w0.y_val_p, q ∈ w0.X_val.zip w0.y_val) ∧
    (∃ q ∈ w0.X_val.zip w0.y_val, q ∉ w0.X_val_p.zip w0.y_val_p) :=
  C4 id (fun l => List.Perm.refl l) df0 args0 w0 (by decide) (by decide)
    (by decide) (by decide)

/-- The eight arrays the Serializer writes with `np.save`, as a function of
the pipeline result. -/
def savedOutputs (r : Except String PrepResult) :
    Except String ((List (List ℚ)) × (List ℚ) × (List (List ℚ)) × (List ℚ) ×
      (List (List ℚ)) × (List ℚ) × (List (List ℚ)) × (List ℚ)) :=
  r.map (fun P => (P.X_train, P.y_train, P.X_val, P.y_val, P.X_val_p,
    P.y_val_p, P.X_test, P.y_test))

/-- C5: the pipeline is deterministic — two runs with identical input
tables and identical percentage arguments produce identical values for all
eight saved arrays.  All randomness is the seed-88 permutation `shuffle`,
a fixed function shared by both runs since `np.random.seed(88)` and
`random_state = 88` are constants. -/
theorem C5 (shuffle : List Record → List Record) (df1 df2 : List Record)
    (a1 a2 : Args) (hdf : df1 = df2) (ha : a1 = a2) :
    savedOutputs (data_preparation shuffle df1 a1) =
      savedOutputs (data_preparation shuffle df2 a2) := by
  rw [hdf, ha]

/-- Closed instance of `C5` at concrete inputs. -/
theorem C5_witness :
    savedOutputs (data_preparation id df0 args0) =
      savedOutputs (data_preparation id df0 args0) :=
  C5 id df0 df0 args0 args0 rfl rfl

/-- `X` and `y` are the parallel feature matrix and label vector of the
record list `L`: equal lengths, and entry `i` of each comes from record
`i` of `L`. -/
def pairedWith (X : List (List ℚ)) (y : List ℚ) (L : List Record) : Prop :=
  X = L.map (fun r => r.features) ∧ y = L.map (fun r => r.label) ∧
  X.length = y.length ∧ X.zip y = L.map (fun r => (r.features, r.label))

/-- C9: for each of the four partitions, the saved `X` and `y` are parallel
arrays of the same length built from the same record list, so row `i` of
`X` and entry `i` of `y` come from the same input record. -/
theorem C9 (shuffle : List Record → List Record) (df : List Record)
    (a : Args) (P : PrepResult)
    (hok : data_preparation shuffle df a = .ok P) :
    pairedWith P.X_train P.y_train P.train_n ∧
    pairedWith P.X_val P.y_val (P.val_n ++ P.val_a) ∧
    pairedWith P.X_val_p P.y_val_p P.val_n ∧
    pairedWith P.X_test P.y_test (P.test_n ++ P.test_a) := by
  obtain ⟨v0, -, -, -, -, -, -, -, h8, h9, h10, h11, h12, h13, h14, h15⟩ :=
    data_preparation_ok hok
  have hzip : ∀ L : List Record,
      (L.map (fun r => r.features)).zip (L.map (fun r => r.label)) =
        L.map (fun r => (r.features, r.label)) :=
    fun L => List.zip_map' _ _ _
  exact ⟨⟨h8, h9, by rw [h8, h9]; simp, by rw [h8, h9, hzip]⟩,
    ⟨h10, h11, by rw [h10, h11]; simp, by rw [h10, h11, hzip]⟩,
    ⟨h12, h13, by rw [h12, h13]; simp, by rw [h12, h13, hzip]⟩,
    ⟨h14, h15, by rw [h14, h15]; simp, by rw [h14, h15, hzip]⟩⟩

/-- Closed instance of `C9` at concrete inputs. -/
theorem C9_witness :
    pairedWith w0.X_train w0.y_train w0.train_n ∧
    pairedWith w0.X_val w0.y_val (w0.val_n ++ w0.val_a) ∧
    pairedWith w0.X_val_p w0.y_val_p w0.val_n ∧
    pairedWith w0.X_test w0.y_test (w0.test_n ++ w0.test_a) :=
  C9 id df0 args0 w0 (by decide)

/-- C10: in the assembled `val` and `test` partitions all normal rows
precede all anomalous rows: the arrays are the concatenation of the
normal part followed by the anomalous part, the normal part carrying only
label 1 and the anomalous part only labels other than 1. -/
theorem C10 (shuffle : List Record → List Record)
    (hs : ∀ l, (shuffle l).Perm l) (df : List Record) (a : Args)
    (P : PrepResult) (hok : data_preparation shuffle df a = .ok P) :
    P.X_val = P.val_n.map (fun r => r.features) ++
      P.val_a.map (fun r => r.features) ∧
    P.y_val = P.val_n.map (fun r => r.label) ++
      P.val_a.map (fun r => r.label) ∧
    P.X_test = P.test_n.map (fun r => r.features) ++
      P.test_a.map (fun r => r.features) ∧
    P.y_test = P.test_n.map (fun r => r.label) ++
      P.test_a.map (fun r => r.label) ∧
    (∀ y ∈ P.val_n.map (fun r => r.label), y = 1) ∧
    (∀ y ∈ P.val_a.map (fun r => r.label), y ≠ 1) ∧
    (∀ y ∈ P.test_n.map (fun r => r.label), y = 1) ∧
    (∀ y ∈ P.test_a.map (fun r => r.label), y ≠ 1) := by
  obtain ⟨v0, ht1, ht2, -, -, hstrat, hnorm, hanom, -, -, h10, h11, -, -,
    h14, h15⟩ := data_preparation_ok hok
  have hnormal : ∀ r ∈ df.filter (fun x => x.label = 1), r.label = 1 := by
    intro r hr
    simpa using (List.mem_filter.mp hr).2
  have hanomaly : ∀ r ∈ P.anomaly, r.label ≠ 1 := by
    intro r hr
    rw [hanom] at hr
    simpa using (List.mem_filter.mp hr).2
  have hvn : ∀ r ∈ P.val_n, r.label = 1 := by
    intro r hr
    refine hnormal r ?_
    refine (train_test_split_perm hs ht1).mem_iff.mp (List.mem_append_right _ ?_)
    exact (train_test_split_perm hs ht2).mem_iff.mp (List.mem_append_left _ hr)
  have htn : ∀ r ∈ P.test_n, r.label = 1 := by
    intro r hr
    refine hnormal r ?_
    refine (train_test_split_perm hs ht1).mem_iff.mp (List.mem_append_right _ ?_)
    exact (train_test_split_perm hs ht2).mem_iff.mp (List.mem_append_right _ hr)
  have hva : ∀ r ∈ P.val_a, r.label ≠ 1 := fun r hr =>
    hanomaly r ((stratified_split_perm hs hstrat).mem_iff.mp
      (List.mem_append_left _ hr))
  have hta : ∀ r ∈ P.test_a, r.label ≠ 1 := fun r hr =>
    hanomaly r ((stratified_split_perm hs hstrat).mem_iff.mp
      (List.mem_append_right _ hr))
  refine ⟨by rw [h10, List.map_append], by rw [h11, List.map_append],
    by rw [h14, List.map_append], by rw [h15, List.map_append],
    ?_, ?_, ?_, ?_⟩ <;>
  · intro y hy
    obtain ⟨r, hr, rfl⟩ := List.mem_map.mp hy
    first
      | exact hvn r hr
      | exact hva r hr
      | exact htn r hr
      | exact hta r hr

/-- Closed instance of `C10` at concrete inputs. -/
theorem C10_witness :
    w0.X_val = w0.val_n.map (fun r => r.features) ++
      w0.val_a.map (fun r => r.features) ∧
    w0.y_val = w0.val_n.map (fun r => r.label) ++
      w0.val_a.map (fun r => r.label) ∧
    w0.X_test = w0.test_n.map (fun r => r.features) ++
      w0.test_a.map (fun r => r.features) ∧
    w0.y_test = w0.test_n.map (fun r => r.label) ++
      w0.test_a.map (fun r => r.label) ∧
    (∀ y ∈ w0.val_n.map (fun r => r.label), y = 1) ∧
    (∀ y ∈ w0.val_a.map (fun r => r.label), y ≠ 1) ∧
    (∀ y ∈ w0.test_n.map (fun r => r.label), y = 1) ∧
    (∀ y ∈ w0.test_a.map (fun r => r.label), y ≠ 1) :=
  C10 id (fun l => List.Perm.refl l) df0 args0 w0 (by decide)

/-- C6: when `perc_val_an` reaches 1 the pipeline raises
(`ZeroDivisionError`); whenever it does not raise, the derived
anomaly-split fraction `n_anol / |anomaly|` really lies in `(0, 1)` — an
out-of-range fraction is never silently clamped but makes the stratified
split raise `ValueError`; and for `perc_val_an` near 0 the number of
anomalous rows injected into validation is near zero — at most
`2 * |train_n| * perc_val_an` once `perc_val_an ≤ 1/2`. -/
theorem C6 (shuffle : List Record → List Record)
    (hs : ∀ l, (shuffle l).Perm l) (df : List Record) (a : Args) :
    (a.perc_val_an = 1 → isErr (data_preparation shuffle df a) = true) ∧
    (∀ P, data_preparation shuffle df a = .ok P →
      0 < n_anol P.train_n.length a.perc_val_an / (P.anomaly.length : ℚ) ∧
      n_anol P.train_n.length a.perc_val_an / (P.anomaly.length : ℚ) < 1) ∧
    (∀ P, data_preparation shuffle df a = .ok P →
      0 < a.perc_val_an → a.perc_val_an ≤ 1/2 →
      (P.val_a.length : ℚ) ≤ 2 * P.train_n.length * a.perc_val_an) := by
  refine ⟨?_, ?_, ?_⟩
  · intro hp1
    have hnotok : ∀ P, data_preparation shuffle df a ≠ .ok P := by
      intro P hok
      obtain ⟨v0, -, -, hz1, -, -, -, -, -, -, -, -, -, -, -, -⟩ :=
        data_preparation_ok hok
      exact hz1 (by rw [hp1]; ring)
    cases hcase : data_preparation shuffle df a with
    | error e => rfl
    | ok P => exact absurd hcase (hnotok P)
  · intro P hok
    obtain ⟨v0, -, -, -, -, hstrat, -, -, -, -, -, -, -, -, -, -⟩ :=
      data_preparation_ok hok
    obtain ⟨⟨ht0, ht1⟩, -, -, -, -⟩ := stratified_split_ok hstrat
    constructor <;> linarith
  · intro P hok hp0 hp12
    obtain ⟨v0, -, -, hz1, hz2, hstrat, -, -, -, -, -, -, -, -, -, -⟩ :=
      data_preparation_ok hok
    obtain ⟨⟨ht0, ht1⟩, -, -, -, -⟩ := stratified_split_ok hstrat
    have hlen := stratified_split_train_length hs hstrat
    have hA0 : 0 < P.anomaly.length := Nat.pos_of_ne_zero hz2
    have hAq : (0 : ℚ) < (P.anomaly.length : ℚ) := by exact_mod_cast hA0
    have hp1 : (1 : ℚ) - a.perc_val_an ≠ 0 := hz1
    have h1p_pos : (0 : ℚ) < 1 - a.perc_val_an := by
      rcases lt_trichotomy ((1 : ℚ) - a.perc_val_an) 0 with h | h | h
      · linarith
      · exact absurd h hp1
      · exact h
    set t : ℚ := 1 - n_anol P.train_n.length a.perc_val_an /
      (P.anomaly.length : ℚ) with ht_def
    have hceil_nonneg : 0 ≤ ⌈(P.anomaly.length : ℚ) * t⌉ :=
      Int.ceil_nonneg (mul_nonneg (by positivity) (le_of_lt ht0))
    have hceil_le : ⌈(P.anomaly.length : ℚ) * t⌉ ≤ (P.anomaly.length : ℤ) := by
      rw [Int.ceil_le]
      push_cast
      nlinarith
    have hnt_le : nTestOf P.anomaly.length t ≤ P.anomaly.length := by
      rw [nTestOf, Int.toNat_le]
      exact hceil_le
    have hnt_cast : ((nTestOf P.anomaly.length t : ℕ) : ℚ) =
        ((⌈(P.anomaly.length : ℚ) * t⌉ : ℤ) : ℚ) := by
      rw [nTestOf]
      exact_mod_cast congrArg (Int.cast : ℤ → ℚ)
        (Int.toNat_of_nonneg hceil_nonneg)
    have hnt_ge : (P.anomaly.length : ℚ) * t ≤
        ((nTestOf P.anomaly.length t : ℕ) : ℚ) := by
      rw [hnt_cast]
      exact Int.le_ceil _
    have hcast : ((P.anomaly.length - nTestOf P.anomaly.length t : ℕ) : ℚ) =
        (P.anomaly.length : ℚ) - ((nTestOf P.anomaly.length t : ℕ) : ℚ) := by
      exact Nat.cast_sub hnt_le
    have hT0 : (0 : ℚ) ≤ (P.train_n.length : ℚ) := by positivity
    calc (P.val_a.length : ℚ)
        = (P.anomaly.length : ℚ) - ((nTestOf P.anomaly.length t : ℕ) : ℚ) := by
          rw [hlen]; exact hcast
      _ ≤ (P.anomaly.length : ℚ) - (P.anomaly.length : ℚ) * t := by linarith
      _ = (P.anomaly.length : ℚ) * (1 - t) := by ring
      _ = (P.anomaly.length : ℚ) *
          (n_anol P.train_n.length a.perc_val_an / (P.anomaly.length : ℚ)) := by
          rw [ht_def]; ring
      _ = n_anol P.train_n.length a.perc_val_an := by
          rw [mul_comm, div_mul_cancel₀ _ (ne_of_gt hAq)]
      _ ≤ 2 * (P.train_n.length : ℚ) * a.perc_val_an := by
          rw [n_anol, div_le_iff₀ h1p_pos]
          nlinarith [mul_nonneg (mul_nonneg hT0 hp0.le)
            (by linarith : (0 : ℚ) ≤ 1 - 2 * a.perc_val_an)]

/-- Closed instance of `C6` at concrete inputs. -/
theorem C6_witness :
    isErr (data_preparation id df0 ⟨1/2, 1/2, 1⟩) = true ∧
    (0 < n_anol w0.train_n.length args0.perc_val_an / (w0.anomaly.length : ℚ) ∧
     n_anol w0.train_n.length args0.perc_val_an / (w0.anomaly.length : ℚ) < 1) ∧
    (w0.val_a.length : ℚ) ≤ 2 * w0.train_n.length * args0.perc_val_an :=
  ⟨(C6 id (fun l => List.Perm.refl l) df0 ⟨1/2, 1/2, 1⟩).1 rfl,
   (C6 id (fun l => List.Perm.refl l) df0 args0).2.1 w0 (by decide),
   (C6 id (fun l => List.Perm.refl l) df0 args0).2.2 w0 (by decide)
     (by decide) (by decide)⟩

/-- C7: the Loader parses each input file as a header-less table whose
field separator is any run of two or more whitespace characters —
`splitFields` inverts formatting with a `k`-space separator for every
`k ≥ 2`, and fields may contain lone spaces (as in negative numbers with
variable spacing), so a single space does not separate fields; every line,
the first included, becomes a data row; the two parsed tables are
concatenated row-wise; and only the first column is renamed, to
`"Class"`. -/
theorem C7 :
    (∀ k : ℕ, 2 ≤ k → ∀ fs : List (List Char), fs ≠ [] →
      (∀ f ∈ fs, goodField f = true) → splitFields (sepJoin k fs) = fs) ∧
    (∀ lines : List (List Char), readTable lines = lines.map splitFields) ∧
    (∀ (l0 : List Char) (rest : List (List Char)),
      readTable (l0 :: rest) = splitFields l0 :: readTable rest) ∧
    (∀ t te : List (List Char), loadConcat t te = readTable t ++ readTable te) ∧
    (∀ (c : String) (cs : List String), renameFirst (c :: cs) = "Class" :: cs) :=
  ⟨fun k hk => splitFields_sepJoin k hk, fun _ => rfl, fun _ _ => rfl,
   fun _ _ => rfl, fun _ _ => rfl⟩

/-- Closed instance of `C7` at concrete inputs: a field with an internal
single space survives the round trip through a three-space separator. -/
theorem C7_witness :
    splitFields (sepJoin 3 [['a', ' ', 'b'], ['c']]) = [['a', ' ', 'b'], ['c']] ∧
    renameFirst ["0", "1", "2"] = ["Class", "1", "2"] :=
  ⟨C7.1 3 (by decide) [['a', ' ', 'b'], ['c']] (by decide) (by decide),
   C7.2.2.2.2 "0" ["1", "2"]⟩

/-- The filesystem before the clean-up of the witness run: exactly the six
files the script deletes. -/
def fs0 : Finset String := removedFiles.toFinset

/-- C8: with `download` set, the Extractor puts every archive member into
`data/ECG5000` and then deletes the archive plus five fixed file names
with no existence check: after a successful run the six paths are gone
while every other extracted member remains, and if any of the six paths
is absent the `os.remove` sequence raises (`FileNotFoundError`), failing
the process — nothing is silently tolerated. -/
theorem C8 :
    (∀ (fs : Finset String) (members : List String) (fs1 : Finset String),
      extractStage fs members = .ok fs1 → ∀ p ∈ removedFiles, p ∉ fs1) ∧
    (∀ (fs : Finset String) (members : List String) (fs1 : Finset String),
      extractStage fs members = .ok fs1 → ∀ m ∈ members,
      ("data/ECG5000/" ++ m) ∉ removedFiles → ("data/ECG5000/" ++ m) ∈ fs1) ∧
    (∀ (fs : Finset String) (members : List String),
      (∃ p ∈ removedFiles, p ∉ extractAll fs members) →
      isErr (extractStage fs members) = true) := by
  refine ⟨?_, ?_, ?_⟩
  · intro fs members fs1 h p hp
    exact removeAll_removed removedFiles _ _ h p hp
  · intro fs members fs1 h m hm hnr
    refine removeAll_keeps removedFiles _ _ _ h ?_ hnr
    exact Finset.mem_union_right _
      (List.mem_toFinset.mpr (List.mem_map.mpr ⟨m, hm, rfl⟩))
  · intro fs members h
    exact removeAll_missing_error removedFiles _ h

/-- Closed instance of `C8` at concrete inputs: after a run on a
filesystem holding exactly the six files, the archive is gone; on an
empty filesystem the deletion raises. -/
theorem C8_witness :
    ("data/ECG5000.zip" ∉ (∅ : Finset String)) ∧
    isErr (extractStage ∅ []) = true :=
  ⟨C8.1 fs0 [] ∅ (by decide) "data/ECG5000.zip" (by decide),
   C8.2.2 ∅ [] ⟨"data/ECG5000.zip", by decide, by decide⟩⟩
